import Mathlib

/-
Shallow embedding of `src/components/OrgChart.vue` (the Interactive Tree
Layout & Rendering Engine).  JavaScript objects are modelled as inductive
types; `undefined` and `null` are both modelled as `Option.none` (the source
only ever tests these fields for truthiness, where both are falsy, while an
array — including the empty array — is truthy).  JavaScript numbers that the
source manipulates are modelled as `Int` (pixel offsets, `Math.floor`
arithmetic) and `Rat` (layout coordinates, idealising IEEE floats by exact
rationals).  `uuidv4()` is modelled as a supply of fresh values `KeyV.fresh n`
threaded through normalization as a counter; values a caller stores in a
`_key` payload field are embedded as `KeyV.raw s`, kept disjoint from the
fresh supply (uuid collision with caller data is assumed away).
-/

set_option maxHeartbeats 1000000

namespace OrgChart

/-- Model of a key value living in the `_key` payload field: either a fresh
`uuidv4()` result (identified by its position in the generation sequence) or a
caller-supplied string that was already stored under `_key` in the raw
payload. -/
inductive KeyV where
  | fresh (n : Nat)
  | raw (s : String)
deriving DecidableEq, Repr

mutual
/-- Model of the raw input tree type `Data = Tree<Datum>`:
`{ value: Datum, children?: Tree<Datum>[] | null }`.  `children = none`
models an absent (or `null`) field, `children = some []` a present empty
array — the source distinguishes the two through JavaScript truthiness. -/
inductive Data where
  | mk (value : Datum) (children : Option (List Data))

/-- Model of a raw payload object (`Datum` in the source: an arbitrary
key-value mapping).  Since the object spread in `deepCopy` copies every
payload field into the normalized copy, the payload model must carry each
field the engine ever reads afterwards: `_key` (shows up in the template key
and in the data-join key), `name` (the invisible-root sentinel filter),
`_children` (a caller may supply tree-shaped data under the reserved name
the collapse machinery reads and `onClickNode` later assigns to `children`)
and `_collapsed`; every other field is carried opaquely in `rest`. -/
inductive Datum where
  | mk (_key : Option String) (name : Option String) (rest : List (String × String))
       (_children : Option (List Data)) (_collapsed : Option Bool)
end

/-- Field accessor: the `_key` field of a raw payload. -/
def Datum._keyF : Datum → Option String
  | .mk k _ _ _ _ => k

/-- Field accessor: the `name` field of a raw payload. -/
def Datum.nameF : Datum → Option String
  | .mk _ nm _ _ _ => nm

/-- Field accessor: the opaque remaining fields of a raw payload. -/
def Datum.restF : Datum → List (String × String)
  | .mk _ _ r _ _ => r

/-- Field accessor: the `_children` field of a raw payload. -/
def Datum.hiddenF : Datum → Option (List Data)
  | .mk _ _ _ h _ => h

/-- Field accessor: the `_collapsed` field of a raw payload. -/
def Datum.collapsedF : Datum → Option Bool
  | .mk _ _ _ _ c => c

/-- Model of a node of the normalized (internally owned) tree.  Its payload
carries the `_key` assigned by `deepCopy`, the `name` and remaining raw
fields, and the `_children` / `_collapsed` fields written by `onClickNode`;
`children` is the structural child list (absent, or a present array). -/
inductive NTree where
  | mk (_key : Option KeyV) (name : Option String) (rest : List (String × String))
       (_children : Option (List NTree)) (_collapsed : Option Bool)
       (children : Option (List NTree))

/-- Field accessor: the `_key` payload field of a normalized node. -/
def NTree.keyF : NTree → Option KeyV
  | .mk k _ _ _ _ _ => k

/-- Field accessor: the `name` payload field of a normalized node. -/
def NTree.nameF : NTree → Option String
  | .mk _ nm _ _ _ _ => nm

/-- Field accessor: the opaque remaining payload fields of a normalized node. -/
def NTree.restF : NTree → List (String × String)
  | .mk _ _ r _ _ _ => r

/-- Field accessor: the `value._children` field (subtrees detached by a
collapse, remembered for restoration). -/
def NTree.hiddenF : NTree → Option (List NTree)
  | .mk _ _ _ h _ _ => h

/-- Field accessor: the `value._collapsed` flag. -/
def NTree.collapsedF : NTree → Option Bool
  | .mk _ _ _ _ c _ => c

/-- Field accessor: the `children` field (subtrees attached to the layout). -/
def NTree.childrenF : NTree → Option (List NTree)
  | .mk _ _ _ _ _ ch => ch

mutual
/-- Number of nodes of a raw input tree. -/
def countData : Data → Nat
  | .mk _ ch => 1 + countDataCh ch

/-- Number of nodes below an optional raw children field. -/
def countDataCh : Option (List Data) → Nat
  | none => 0
  | some l => countDataL l

/-- Number of nodes of a list of raw input trees. -/
def countDataL : List Data → Nat
  | [] => 0
  | d :: ds => countData d + countDataL ds
end

mutual
/-- The embedding of a raw node that enters the normalized tree without
being processed: when a caller payload stores trees under the reserved
`_children` field, the object spread in `deepCopy` copies that array by
reference into the copy's `value._children`, with no fresh keys assigned and
no recursive copying.  This injection re-types such a raw subtree as an
`NTree` value: a caller `_key` string stays a caller string (`KeyV.raw`), a
missing field stays missing, and nested `children` / payload `_children`
keep their raw contents. -/
def rawNode : Data → NTree
  | .mk (.mk k nm r hch hcol) ch =>
    .mk (k.map KeyV.raw) nm r (rawForestO hch) hcol (rawForestO ch)

/-- `rawNode` below an optional raw child list. -/
def rawForestO : Option (List Data) → Option (List NTree)
  | none => none
  | some l => some (rawForestL l)

/-- `rawNode` mapped over a list of raw trees. -/
def rawForestL : List Data → List NTree
  | [] => []
  | d :: ds => rawNode d :: rawForestL ds
end

mutual
/-- Translation of `deepCopy` (OrgChart.vue lines 225-233):
`let obj = { value: { _key: uuidv4(), ...node.value } }` followed by
`if (node.children) obj.children = [...node.children.map(deepCopy)]`.
The spread copies every caller payload field into the copy: the fresh `_key`
is overridden when the payload already has one, and caller-supplied
`_children` / `_collapsed` values are carried over as they are (the
`_children` trees through the `rawNode` injection — they are not deep-copied
and consume no uuids).  The second argument threads the uuid supply: the
node consumes one fresh value (even when the spread immediately overrides
the `_key` property, the `uuidv4()` call has already happened), then the
children consume theirs left to right.  Returns the copy together with the
advanced supply. -/
def deepCopy : Data → Nat → NTree × Nat
  | .mk v none, n =>
    (.mk (some (match v._keyF with | some s => .raw s | none => .fresh n))
       v.nameF v.restF (rawForestO v.hiddenF) v.collapsedF none, n + 1)
  | .mk v (some l), n =>
    let r := deepCopyL l (n + 1)
    (.mk (some (match v._keyF with | some s => .raw s | none => .fresh n))
       v.nameF v.restF (rawForestO v.hiddenF) v.collapsedF (some r.1), r.2)

/-- `deepCopy` mapped over a list of raw trees, threading the uuid supply
left to right (the evaluation order of `node.children.map(deepCopy)`). -/
def deepCopyL : List Data → Nat → List NTree × Nat
  | [], n => ([], n)
  | d :: ds, n =>
    let r := deepCopy d n
    let r2 := deepCopyL ds r.2
    (r.1 :: r2.1, r2.2)
end

/-- The argument of `updatedInternalData`: at runtime the caller may pass
`undefined` (modelled by wrapping in `Option`), a single tree, or an array of
trees (the source dispatches on `Array.isArray(externalData)`). -/
inductive ExternalData where
  | single (d : Data)
  | forest (l : List Data)

/-- Translation of `updatedInternalData` (OrgChart.vue lines 212-223): builds
the synthetic root `{ value: { name: "__invisible_root" }, children: [] }`;
returns it unchanged for absent input; for an array input pushes a deep copy
of each element iterating `i` from `length - 1` down to `0` (so the top-level
trees end up in reverse input order, and the uuid supply is consumed in that
same reversed order); for a single tree pushes one deep copy.  The `Nat`
argument threads the uuid supply. -/
def updatedInternalData : Option ExternalData → Nat → NTree × Nat
  | none, n => (.mk none (some "__invisible_root") [] none none (some []), n)
  | some (.single d), n =>
    let r := deepCopy d n
    (.mk none (some "__invisible_root") [] none none (some [r.1]), r.2)
  | some (.forest l), n =>
    let r := deepCopyL l.reverse n
    (.mk none (some "__invisible_root") [] none none (some r.1), r.2)

/-- Translation of the body of `onClickNode` (OrgChart.vue lines 288-302)
applied to the clicked node `curNode.data`: if `curNode.data.children` is
truthy (a present array, possibly empty), move it into `value._children`, set
`children` to `null` and `_collapsed` to `true`; otherwise assign
`value._children` (possibly `null`/absent) back to `children`, set
`value._children` to `null` and `_collapsed` to `false`. -/
def toggleNode : NTree → NTree
  | .mk k nm r h _ ch =>
    match ch with
    | some cs => .mk k nm r (some cs) (some true) none
    | none => .mk k nm r none (some false) h

mutual
/-- Application of `toggleNode` to the node sitting at a path of child
indices inside the normalized tree (the model of mutating, through the
object reference `curNode.data`, one node of the internally owned tree).  A
path step that does not exist leaves the tree unchanged. -/
def toggleAt : List Nat → NTree → NTree
  | [], t => toggleNode t
  | i :: p, .mk k nm r h c ch =>
    match ch with
    | none => .mk k nm r h c none
    | some l => .mk k nm r h c (some (toggleAtL i p l))

/-- Helper of `toggleAt`: descend to the `i`-th element of a child list. -/
def toggleAtL : Nat → List Nat → List NTree → List NTree
  | _, _, [] => []
  | 0, p, t :: ts => toggleAt p t :: ts
  | i + 1, p, t :: ts => t :: toggleAtL i p ts
end

mutual
/-- Every node of a normalized tree, the node itself first, then the nodes
below `children`, then the nodes below `value._children`. -/
def allNodes : NTree → List NTree
  | .mk k nm r h c ch =>
    .mk k nm r h c ch :: (allNodesCh ch ++ allNodesCh h)

/-- Nodes below an optional child list. -/
def allNodesCh : Option (List NTree) → List NTree
  | none => []
  | some l => allNodesL l

/-- Nodes of a list of normalized trees. -/
def allNodesL : List NTree → List NTree
  | [] => []
  | t :: ts => allNodes t ++ allNodesL ts
end

/-- A child-list field is populated when it is a present, non-empty array. -/
def popB : Option (List NTree) → Bool
  | some (_ :: _) => true
  | _ => false

mutual
/-- Bool version of the structural invariant: at no node of the tree are
`children` and `value._children` both populated. -/
def goodNT : NTree → Bool
  | .mk _ _ _ h _ ch =>
    (!(popB ch && popB h)) && goodCh ch && goodCh h

/-- Invariant below an optional child list. -/
def goodCh : Option (List NTree) → Bool
  | none => true
  | some l => goodL l

/-- Invariant for a list of trees. -/
def goodL : List NTree → Bool
  | [] => true
  | t :: ts => goodNT t && goodL ts
end

mutual
/-- Number of nodes of a normalized tree (counting the nodes below
`children` and below `value._children`). -/
def countNT : NTree → Nat
  | .mk _ _ _ h _ ch => 1 + countNTCh ch + countNTCh h

/-- Number of nodes below an optional child list. -/
def countNTCh : Option (List NTree) → Nat
  | none => 0
  | some l => countNTL l

/-- Number of nodes of a list of normalized trees. -/
def countNTL : List NTree → Nat
  | [] => 0
  | t :: ts => countNT t + countNTL ts
end

mutual
/-- The `_key` values stored in a normalized tree, in preorder. -/
def keysNT : NTree → List KeyV
  | .mk k _ _ h _ ch => k.toList ++ (keysCh ch ++ keysCh h)

/-- Keys below an optional child list. -/
def keysCh : Option (List NTree) → List KeyV
  | none => []
  | some l => keysL l

/-- Keys of a list of normalized trees. -/
def keysL : List NTree → List KeyV
  | [] => []
  | t :: ts => keysNT t ++ keysL ts
end

/-- Recover the raw `_key` payload field from a stored key: a fresh uuid was
not present in the raw payload, a raw key was. -/
def keyToRaw : Option KeyV → Option String
  | some (.raw s) => some s
  | _ => none

mutual
/-- Forget the data `deepCopy` added to a copied node (the generated fresh
`_key`), recovering the raw input tree the copy was made from: caller
strings stored under `_key` come back, and payload `_children` /
`_collapsed` values carried over by the spread are mapped back to their raw
form. -/
def forgetNT : NTree → Data
  | .mk k nm r h c ch => .mk (.mk (keyToRaw k) nm r (forgetCh h) c) (forgetCh ch)

/-- Forget helper for an optional child list. -/
def forgetCh : Option (List NTree) → Option (List Data)
  | none => none
  | some l => some (forgetL l)

/-- Forget helper for a list of trees. -/
def forgetL : List NTree → List Data
  | [] => []
  | t :: ts => forgetNT t :: forgetL ts
end

mutual
/-- Whether no payload of a raw input tree (along `children`) contains a
`_key` field — the condition under which the fresh uuids assigned by
`deepCopy` survive the object spread `{ _key: uuidv4(), ...node.value }`. -/
def noKeyField : Data → Bool
  | .mk v ch => v._keyF.isNone && noKeyFieldCh ch

/-- `noKeyField` below an optional child list. -/
def noKeyFieldCh : Option (List Data) → Bool
  | none => true
  | some l => noKeyFieldL l

/-- `noKeyField` for a list of raw trees. -/
def noKeyFieldL : List Data → Bool
  | [] => true
  | d :: ds => noKeyField d && noKeyFieldL ds
end

mutual
/-- Whether no payload of a raw input tree (along `children`) contains a
`_children` field — the condition under which the object spread does not
smuggle caller trees into the reserved `value._children` slot of a copy. -/
def noHiddenField : Data → Bool
  | .mk v ch => v.hiddenF.isNone && noHiddenFieldCh ch

/-- `noHiddenField` below an optional child list. -/
def noHiddenFieldCh : Option (List Data) → Bool
  | none => true
  | some l => noHiddenFieldL l

/-- `noHiddenField` for a list of raw trees. -/
def noHiddenFieldL : List Data → Bool
  | [] => true
  | d :: ds => noHiddenField d && noHiddenFieldL ds
end

/-- `noHiddenField` lifted to the argument of `updatedInternalData`. -/
def noHiddenExternal : Option ExternalData → Bool
  | none => true
  | some (.single d) => noHiddenField d
  | some (.forest l) => noHiddenFieldL l

/-- A node of the positioned tree produced by the layout pass, before it is
flattened: the underlying normalized node, the node's x-coordinate relative
to its parent, and the positioned child subtrees. -/
inductive PTree where
  | mk (data : NTree) (relX : Rat) (sub : List PTree)

/-- Field accessor: the underlying normalized node. -/
def PTree.dataF : PTree → NTree
  | .mk d _ _ => d

/-- Field accessor: x-coordinate relative to the parent. -/
def PTree.relXF : PTree → Rat
  | .mk _ x _ => x

/-- Field accessor: positioned child subtrees. -/
def PTree.subF : PTree → List PTree
  | .mk _ _ s => s

/-- Replace the relative x-coordinate at the root of a positioned subtree. -/
def PTree.withRelX : PTree → Rat → PTree
  | .mk d _ s, x => .mk d x s

mutual
/-- Number of nodes of a positioned tree. -/
def sizePT : PTree → Nat
  | .mk _ _ sub => 1 + sizePTL sub

/-- Number of nodes of a list of positioned trees. -/
def sizePTL : List PTree → Nat
  | [] => 0
  | t :: ts => sizePT t + sizePTL ts
end

/-- Contour separation of the tidy-tree layout: the minimal shift that keeps
the next subtree's left contour clear of the already placed subtrees' right
contour, compared depth by depth.  `w` is the configured `nodeWidth` (the
`nodeSize` breadth of `d3.tree()`); following d3's default `separation`,
the contacting nodes at depth 0 of the contours are the siblings being
placed and must sit `1 * w` apart, while contacting nodes at any deeper
level have different parents and must sit `2 * w` apart. -/
def fitShift (w : Rat) (accR curL : List Rat) : Rat :=
  (((List.zipWith (fun a b => a - b) accR curL).enum.map
      (fun pr => pr.2 + (if pr.1 = 0 then w else 2 * w))).foldl max 0)

/-- One step of placing sibling subtrees left to right.  The accumulator is
(placed subtrees with their offsets, merged left contour, merged right
contour, offset of the last placed subtree); the next element carries the
subtree and its own left/right contours. -/
def placeStep (w : Rat) (acc : List (PTree × Rat) × List Rat × List Rat × Rat)
    (cur : PTree × List Rat × List Rat) : List (PTree × Rat) × List Rat × List Rat × Rat :=
  let s := fitShift w acc.2.2.1 cur.2.1
  (acc.1 ++ [(cur.1, s)],
   acc.2.1 ++ ((cur.2.1.map (fun x => x + s)).drop acc.2.1.length),
   (cur.2.2.map (fun x => x + s)) ++ acc.2.2.1.drop cur.2.2.length,
   s)

/-- Combine a node with the placed layouts of its child subtrees: the first
child sits at offset 0, each following child is shifted by `fitShift`, the
parent is centred over the span from the first to the last child (tidy-tree
placement, modelling the fixed-node-size `d3.tree()` layout invoked by
`buildTree`), and the contours are re-based to the parent.  A node whose
`children` field is a present empty array gets the same leaf layout as a node
without the field (as with the d3 hierarchy, which drops empty child
arrays). -/
def combine (node : NTree) (subs : List (PTree × List Rat × List Rat)) (w : Rat) :
    PTree × List Rat × List Rat :=
  match subs with
  | [] => (.mk node 0 [], [0], [0])
  | c :: rest =>
    let r := rest.foldl (placeStep w) ([(c.1, 0)], c.2.1, c.2.2, 0)
    let px := r.2.2.2 / 2
    (.mk node 0 (r.1.map (fun pr => pr.1.withRelX (pr.2 - px))),
     0 :: r.2.1.map (fun x => x - px),
     0 :: r.2.2.1.map (fun x => x - px))

mutual
/-- Tidy-tree layout of one subtree (the model of the `d3.tree()` pass inside
`buildTree`, OrgChart.vue lines 162-174): only nodes reachable through the
`children` field participate, the root of the subtree gets relative
x-coordinate 0, and the left/right contours (one x per depth) are returned
for the parent's placement step. -/
def layoutSub (w : Rat) : NTree → PTree × List Rat × List Rat
  | .mk k nm r h c none => (.mk (.mk k nm r h c none) 0 [], [0], [0])
  | .mk k nm r h c (some l) => combine (.mk k nm r h c (some l)) (layoutSubL w l) w

/-- `layoutSub` mapped over a list of sibling subtrees. -/
def layoutSubL (w : Rat) : List NTree → List (PTree × List Rat × List Rat)
  | [] => []
  | t :: ts => layoutSub w t :: layoutSubL w ts
end

/-- Model of a d3 `HierarchyPointNode`, an element of `nodeDataList`: the
path of child indices from the layout root (the model of the object
reference identity of `node.data`), the underlying normalized node, and the
computed coordinates. -/
structure PosNode where
  path : List Nat
  data : NTree
  x : Rat
  y : Rat

/-- Model of a d3 `HierarchyPointLink`, an element of `linkDataList`. -/
structure PosLink where
  source : PosNode
  target : PosNode

/-- A queue entry of the breadth-first traversal: parent's positioned node
(absent for the root), path, depth, absolute x, and the positioned subtree. -/
structure QEntry where
  par : Option PosNode
  path : List Nat
  depth : Nat
  absX : Rat
  sub : PTree

/-- Queue entries for the children of a just-visited node, in sibling order
(`i` is the index of the first child in `cs` within its sibling list). -/
def kidsEntries (pn : PosNode) (p : List Nat) (d : Nat) (ax : Rat) :
    Nat → List PTree → List QEntry
  | _, [] => []
  | i, c :: cs =>
    ⟨some pn, p ++ [i], d + 1, ax + c.relXF, c⟩ :: kidsEntries pn p d ax (i + 1) cs

/-- Breadth-first traversal of the positioned tree, the order in which d3's
`node.each` — and hence `descendants()` and `links()` — enumerates hierarchy
nodes.  Each visit yields (parent's positioned node, this positioned node);
the depth coordinate is `depth * levelHeight`, the model of the `nodeSize`
depth spacing.  -/
def bfsTraverse (lv : Rat) : List QEntry → List (Option PosNode × PosNode)
  | [] => []
  | e :: rest =>
    let here : PosNode := ⟨e.path, e.sub.dataF, e.absX, (e.depth : Rat) * lv⟩
    (e.par, here) :: bfsTraverse lv (rest ++ kidsEntries here e.path e.depth e.absX 0 e.sub.subF)
termination_by q => (q.map (fun e => sizePT e.sub)).sum
decreasing_by
  have h1 : ∀ (pn : PosNode) (p : List Nat) (d : Nat) (ax : Rat) (i : Nat) (cs : List PTree),
      ((kidsEntries pn p d ax i cs).map (fun e => sizePT e.sub)).sum = sizePTL cs := by
    intro pn p d ax i cs
    induction cs generalizing i with
    | nil => simp [kidsEntries, sizePTL]
    | cons c cs ih => simp [kidsEntries, sizePTL, ih]
  have h2 : ∀ t : PTree, sizePT t = 1 + sizePTL t.subF := by
    intro t; cases t; simp [sizePT, PTree.subF]
  simp only [List.map_append, List.sum_append, List.map_cons, List.sum_cons, h1]
  have h3 := h2 e.sub
  omega

/-- Model of the configuration constants of the component (`config`,
OrgChart.vue lines 69-74), generalised to arbitrary values so that layout can
be stated for every configuration; the source fixes the defaults below. -/
structure Config where
  nodeWidth : Rat
  nodeHeight : Rat
  levelHeight : Rat
  collapseEnabled : Bool

/-- The configuration constants of the source: nodeWidth 100, nodeHeight 100,
levelHeight 200, collapseEnabled true. -/
def config : Config := ⟨100, 100, 200, true⟩

/-- The value returned by `buildTree`: positioned nodes (`tree.descendants()`)
and links (`tree.links()`). -/
structure LayoutOut where
  nodes : List PosNode
  links : List PosLink

/-- Translation of `buildTree` (OrgChart.vue lines 162-174): run the
fixed-node-size tidy-tree layout on the hierarchy of the given root and list
its positioned nodes (breadth first, root first) and its links (one per
non-root node, source = parent, in the same traversal order). -/
def buildTree (cfg : Config) (rootNode : NTree) : LayoutOut :=
  let pt := (layoutSub cfg.nodeWidth rootNode).1
  let visits := bfsTraverse cfg.levelHeight [⟨none, [], 0, 0, pt⟩]
  ⟨visits.map (fun v => v.2),
   visits.filterMap (fun v => match v.1 with | some s => some ⟨s, v.2⟩ | none => none)⟩

/-- The state `draw` reads and writes: the normalized tree `_dataset.value`
and the rendered node/link lists. -/
structure DrawState where
  dataset : NTree
  nodeDataList : List PosNode
  linkDataList : List PosLink

/-- Translation of the data part of `draw` (OrgChart.vue lines 121-129):
recompute the layout from the current normalized tree, assign the node and
link lists, `splice(0, 1)` away the first node (the invisible root), and keep
only the links whose source payload `name` differs from the string
`"__invisible_root"`. -/
def draw (cfg : Config) (s : DrawState) : DrawState :=
  let initialTree := buildTree cfg s.dataset
  { dataset := s.dataset,
    nodeDataList := initialTree.nodes.drop 1,
    linkDataList := initialTree.links.filter
      (fun x => x.source.data.nameF != some "__invisible_root") }

/-- Translation of `onClickNode` (OrgChart.vue lines 288-302): when collapse
is enabled, read `nodeDataList.value[index]`; an index with no node makes the
subsequent `curNode.data` access throw a TypeError (modelled by
`Except.error`); otherwise toggle that node inside the normalized tree (the
mutation of `curNode.data`) and re-run `draw`. -/
def onClickNode (cfg : Config) (s : DrawState) (index : Nat) : Except String DrawState :=
  if cfg.collapseEnabled then
    match s.nodeDataList[index]? with
    | none => .error "TypeError: cannot read data of undefined"
    | some curNode =>
      .ok (draw cfg { s with dataset := toggleAt curNode.path s.dataset })
  else .ok s

/-- The module variable `currentScale` of the source (never reassigned). -/
def currentScale : Int := 1

/-- The mutable state captured by the drag handlers installed by `enableDrag`
(OrgChart.vue lines 235-280): the pointer position recorded at mousedown, the
drag flag, the translate offsets parsed out of the transform recorded at
mousedown (`mouseDownTransform`), and the translate offsets currently applied
to the svg and dom layers. -/
structure PanState where
  startX : Int
  startY : Int
  isDrag : Bool
  originX : Int
  originY : Int
  offsetX : Int
  offsetY : Int
deriving DecidableEq, Repr

/-- Translation of the mousedown handler: record the current transform (its
translate offsets) and the pointer position, and start dragging. -/
def onMouseDown (s : PanState) (clientX clientY : Int) : PanState :=
  { s with startX := clientX, startY := clientY, isDrag := true,
           originX := s.offsetX, originY := s.offsetY }

/-- Translation of the mousemove handler: while dragging, set the applied
offsets to `Math.floor((client - start) / currentScale) + originOffset`
(`Int.fdiv` is floor division, as `Math.floor` on an exact quotient). -/
def onMouseMove (scale : Int) (s : PanState) (clientX clientY : Int) : PanState :=
  if s.isDrag then
    { s with offsetX := Int.fdiv (clientX - s.startX) scale + s.originX,
             offsetY := Int.fdiv (clientY - s.startY) scale + s.originY }
  else s

/-- Translation of the mouseup handler. -/
def onMouseUp (s : PanState) : PanState :=
  { s with startX := 0, startY := 0, isDrag := false }

/-- A link datum as seen by the keyed data join in `draw`: the `_key` payload
fields of its source and target rendered to strings.  The join identifies a
link by the single string `sourceKey ++ "-" ++ targetKey` (the template
literal of line 132), not by the ordered pair. -/
structure DLink where
  sourceKey : String
  targetKey : String
deriving DecidableEq, Repr

/-- The key function of the data join (OrgChart.vue line 132). -/
def linkKeyStr (l : DLink) : String := l.sourceKey ++ "-" ++ l.targetKey

/-- Remove the first entry with the given key from an association list (the
`Map.delete` of the d3 join). -/
def eraseKey (k : String) : List (String × DLink) → List (String × DLink)
  | [] => []
  | e :: es => if e.1 = k then es else e :: eraseKey k es

/-- First loop of d3's keyed data join (`bindKey` of d3-selection, reached
through `selection.data(linkDataList, key)` in `draw`): walk the previously
bound elements in order, register each under its key, and send an element
whose key is already registered to the exit set. -/
def bindOld : List DLink → List (String × DLink) → List (String × DLink) × List DLink
  | [], m => (m, [])
  | l :: ls, m =>
    if (m.lookup (linkKeyStr l)).isSome then
      let r := bindOld ls m
      (r.1, l :: r.2)
    else bindOld ls (m ++ [(linkKeyStr l, l)])

/-- Second loop of d3's keyed data join: walk the new data in order; a datum
whose key matches a still-registered old element joins it (update) and
consumes the registration, any other datum enters.  Returns (update, enter,
remaining registrations). -/
def bindNew : List DLink → List (String × DLink) → List DLink × List DLink × List (String × DLink)
  | [], m => ([], [], m)
  | d :: ds, m =>
    if (m.lookup (linkKeyStr d)).isSome then
      let r := bindNew ds (eraseKey (linkKeyStr d) m)
      (d :: r.1, r.2.1, r.2.2)
    else
      let r := bindNew ds m
      (r.1, d :: r.2.1, r.2.2)

/-- The enter/update/exit classification of the data join. -/
structure JoinSets where
  update : List DLink
  enter : List DLink
  exit : List DLink

/-- Model of the keyed data join performed by `draw` (OrgChart.vue lines
130-159) between the previously rendered link collection and the newly
computed one: update and enter as produced by the second loop, exit as the
duplicate-keyed elements of the first loop plus the old elements never
matched by a new datum. -/
def dataJoinByKey (old new : List DLink) : JoinSets :=
  let b := bindOld old []
  let r := bindNew new b.1
  ⟨r.1, r.2.1, b.2 ++ (r.2.2.map (fun e => e.2))⟩

/-- Concrete two-tree input forest (no payload carries a `_key` field). -/
def exampleForest : List Data :=
  [Data.mk ⟨none, none, [("label", "1")], none, none⟩
      (some [Data.mk ⟨none, none, [("label", "2")], none, none⟩ none]),
   Data.mk ⟨none, none, [("label", "5")], none, none⟩ none]

/-- Concrete input forest whose two payloads both carry `_key: "a"`. -/
def dupKeyForest : List Data :=
  [Data.mk ⟨some "a", none, [], none, none⟩ none,
   Data.mk ⟨some "a", none, [], none, none⟩ none]

/-- Concrete normalized child node. -/
def exampleChild : NTree := .mk (some (.fresh 1)) none [("label", "c")] none none none

/-- Concrete normalized node with one child. -/
def exampleParent : NTree :=
  .mk (some (.fresh 0)) none [("label", "p")] none none (some [exampleChild])

/-- Concrete normalized leaf whose `_collapsed` flag was never written. -/
def freshLeaf : NTree := .mk (some (.fresh 0)) none [("label", "leaf")] none none none

/-- Concrete raw input whose root payload reuses the sentinel string
`"__invisible_root"` in its `name` field. -/
def sentinelReuseInput : Data :=
  .mk ⟨none, some "__invisible_root", [("label", "impostor")], none, none⟩
    (some [.mk ⟨none, none, [("label", "child")], none, none⟩ none])

/-- Concrete raw input whose top-level payload smuggles a tree under the
reserved `_children` name while also having a structural child: the object
spread carries the payload `_children` into the normalized copy. -/
def hiddenPayloadInput : Data :=
  .mk (.mk none none [] (some [Data.mk (.mk none none [("label", "x")] none none) none]) none)
    (some [Data.mk (.mk none none [("label", "y")] none none) none])

/-- The copy that normalizing `hiddenPayloadInput` attaches under the
synthetic root: its structural `children` holds the copy of the "y" child
(fresh key 1) while its `value._children` holds the injected raw "x" tree —
both populated at once. -/
def hiddenPayloadNode : NTree :=
  .mk (some (.fresh 0)) none []
    (some [.mk none none [("label", "x")] none none none])
    none
    (some [.mk (some (.fresh 1)) none [("label", "y")] none none none])

/-- The normalized tree of `sentinelReuseInput`. -/
def sentinelReuseTree : NTree := (updatedInternalData (some (.single sentinelReuseInput)) 0).1

/-- A draw state whose dataset is the normalization of an absent input (the
synthetic root alone) and whose rendered lists are still empty. -/
def emptyState : DrawState := ⟨(updatedInternalData none 0).1, [], []⟩

/-- The synthetic root produced by normalizing an absent input. -/
def rootOnly : NTree := .mk none (some "__invisible_root") [] none none (some [])

/-- Previously rendered link collection (keys contain no collision). -/
def prevLinks : List DLink := [⟨"a", "b"⟩, ⟨"a", "c"⟩]

/-- Newly computed link collection (keys contain no collision). -/
def nextLinks : List DLink := [⟨"a", "c"⟩, ⟨"a", "d"⟩]

/-- Old link collection for the composite-key collision: the single pair
("a", "b-c"), whose join key is the string "a-b-c". -/
def collisionOld : List DLink := [⟨"a", "b-c"⟩]

/-- New link collection for the composite-key collision: the single pair
("a-b", "c"), whose join key is the same string "a-b-c". -/
def collisionNew : List DLink := [⟨"a-b", "c"⟩]

/-! Theorems.  First a stock of lemmas about the embedded operations, then
one theorem (with witness or counterexample where required) per claim of the
specification. -/

theorem countDataL_append (a b : List Data) :
    countDataL (a ++ b) = countDataL a + countDataL b := by
  induction a with
  | nil => simp [countDataL]
  | cons d ds ih => simp [countDataL, ih]; omega

theorem countDataL_reverse (l : List Data) : countDataL l.reverse = countDataL l := by
  induction l with
  | nil => rfl
  | cons d ds ih =>
    simp only [List.reverse_cons, countDataL_append, countDataL, ih]
    omega

theorem noKeyFieldL_iff (l : List Data) :
    noKeyFieldL l = true ↔ ∀ d ∈ l, noKeyField d = true := by
  induction l with
  | nil => simp [noKeyFieldL]
  | cons d ds ih => simp [noKeyFieldL, Bool.and_eq_true, ih]

theorem noKeyFieldL_reverse (l : List Data) (h : noKeyFieldL l = true) :
    noKeyFieldL l.reverse = true := by
  rw [noKeyFieldL_iff] at h ⊢
  intro d hd
  exact h d (List.mem_reverse.mp hd)

theorem noHiddenFieldL_iff (l : List Data) :
    noHiddenFieldL l = true ↔ ∀ d ∈ l, noHiddenField d = true := by
  induction l with
  | nil => simp [noHiddenFieldL]
  | cons d ds ih => simp [noHiddenFieldL, Bool.and_eq_true, ih]

theorem noHiddenFieldL_reverse (l : List Data) (h : noHiddenFieldL l = true) :
    noHiddenFieldL l.reverse = true := by
  rw [noHiddenFieldL_iff] at h ⊢
  intro d hd
  exact h d (List.mem_reverse.mp hd)

mutual
theorem forget_rawNode : ∀ d : Data, forgetNT (rawNode d) = d
  | .mk (.mk k nm r hch hcol) ch => by
    cases k <;>
      simp [rawNode, forgetNT, keyToRaw, forget_rawForestO hch, forget_rawForestO ch]

theorem forget_rawForestO : ∀ o : Option (List Data), forgetCh (rawForestO o) = o
  | none => rfl
  | some l => by simp [rawForestO, forgetCh, forget_rawForestL l]

theorem forget_rawForestL : ∀ l : List Data, forgetL (rawForestL l) = l
  | [] => rfl
  | d :: ds => by simp [rawForestL, forgetL, forget_rawNode d, forget_rawForestL ds]
end

theorem nodup_range_one (k : Nat) : ∀ n : Nat, (List.range' n k).Nodup := by
  induction k with
  | zero => intro n; simp
  | succ k ih =>
    intro n
    rw [List.range'_succ]
    refine List.nodup_cons.mpr ⟨?h, ih (n + 1)⟩
    intro hmem
    have := List.mem_range'.mp hmem
    omega

mutual
theorem deepCopy_spec : ∀ (d : Data) (n : Nat),
    (deepCopy d n).2 = n + countData d
    ∧ (noHiddenField d = true → countNT (deepCopy d n).1 = countData d)
    ∧ forgetNT (deepCopy d n).1 = d
    ∧ (noKeyField d = true → noHiddenField d = true →
        keysNT (deepCopy d n).1 = (List.range' n (countData d)).map KeyV.fresh)
    ∧ (noHiddenField d = true → goodNT (deepCopy d n).1 = true)
  | .mk v none, n => by
    refine ⟨?_, ?_, ?_, ?_, ?_⟩
    · simp [deepCopy, countData, countDataCh]
    · intro hh
      simp only [noHiddenField, noHiddenFieldCh, Bool.and_eq_true,
        Option.isNone_iff_eq_none] at hh
      simp [deepCopy, countData, countDataCh, countNT, countNTCh, hh.1, rawForestO]
    · cases v with
      | mk a b c hch hcol =>
        cases a <;>
          simp [deepCopy, forgetNT, forgetCh, keyToRaw, Datum._keyF, Datum.nameF,
            Datum.restF, Datum.hiddenF, Datum.collapsedF, forget_rawForestO]
    · intro h hh
      simp only [noKeyField, noKeyFieldCh, Bool.and_eq_true, Option.isNone_iff_eq_none] at h
      simp only [noHiddenField, noHiddenFieldCh, Bool.and_eq_true,
        Option.isNone_iff_eq_none] at hh
      simp [deepCopy, keysNT, keysCh, h.1, hh.1, rawForestO, countData, countDataCh,
        List.range'_one]
    · intro hh
      simp only [noHiddenField, noHiddenFieldCh, Bool.and_eq_true,
        Option.isNone_iff_eq_none] at hh
      simp [deepCopy, goodNT, goodCh, popB, hh.1, rawForestO]
  | .mk v (some l), n => by
    have ih := deepCopyL_spec l (n + 1)
    refine ⟨?_, ?_, ?_, ?_, ?_⟩
    · simp only [deepCopy, countData, countDataCh, ih.1]
      omega
    · intro hh
      simp only [noHiddenField, noHiddenFieldCh, Bool.and_eq_true,
        Option.isNone_iff_eq_none] at hh
      simp only [deepCopy, countNT, countNTCh, ih.2.1 hh.2, countData, countDataCh,
        hh.1, rawForestO]
      omega
    · cases v with
      | mk a b c hch hcol =>
        cases a <;>
          simp [deepCopy, forgetNT, forgetCh, keyToRaw, Datum._keyF, Datum.nameF,
            Datum.restF, Datum.hiddenF, Datum.collapsedF, forget_rawForestO, ih.2.2.1]
    · intro h hh
      simp only [noKeyField, noKeyFieldCh, Bool.and_eq_true, Option.isNone_iff_eq_none] at h
      simp only [noHiddenField, noHiddenFieldCh, Bool.and_eq_true,
        Option.isNone_iff_eq_none] at hh
      have hk := ih.2.2.2.1 h.2 hh.2
      simp only [deepCopy, keysNT, keysCh, h.1, hh.1, rawForestO, Option.toList_some, hk,
        countData, countDataCh]
      rw [Nat.add_comm 1 (countDataL l), List.range'_succ]
      simp
    · intro hh
      simp only [noHiddenField, noHiddenFieldCh, Bool.and_eq_true,
        Option.isNone_iff_eq_none] at hh
      simp only [deepCopy, goodNT, goodCh, popB, hh.1, rawForestO, ih.2.2.2.2 hh.2]
      simp [Bool.and_eq_true]

theorem deepCopyL_spec : ∀ (l : List Data) (n : Nat),
    (deepCopyL l n).2 = n + countDataL l
    ∧ (noHiddenFieldL l = true → countNTL (deepCopyL l n).1 = countDataL l)
    ∧ forgetL (deepCopyL l n).1 = l
    ∧ (noKeyFieldL l = true → noHiddenFieldL l = true →
        keysL (deepCopyL l n).1 = (List.range' n (countDataL l)).map KeyV.fresh)
    ∧ (noHiddenFieldL l = true → goodL (deepCopyL l n).1 = true)
  | [], n => by
    refine ⟨?_, ?_, ?_, ?_, ?_⟩ <;>
      simp [deepCopyL, countDataL, countNTL, forgetL, keysL, goodL]
  | d :: ds, n => by
    have ih1 := deepCopy_spec d n
    have ih2 := deepCopyL_spec ds (n + countData d)
    refine ⟨?_, ?_, ?_, ?_, ?_⟩
    · simp only [deepCopyL, ih1.1, ih2.1, countDataL]
      omega
    · intro hh
      simp only [noHiddenFieldL, Bool.and_eq_true] at hh
      simp only [deepCopyL, countNTL, ih1.1, ih1.2.1 hh.1, ih2.2.1 hh.2, countDataL]
    · simp only [deepCopyL, forgetL, ih1.1, ih1.2.2.1, ih2.2.2.1]
    · intro h hh
      simp only [noKeyFieldL, Bool.and_eq_true] at h
      simp only [noHiddenFieldL, Bool.and_eq_true] at hh
      simp only [deepCopyL, keysL, ih1.1, ih1.2.2.2.1 h.1 hh.1, ih2.2.2.2.1 h.2 hh.2,
        countDataL]
      rw [← List.map_append, List.range'_append_1]
      rw [Nat.add_comm (countDataL ds) (countData d)]
    · intro hh
      simp only [noHiddenFieldL, Bool.and_eq_true] at hh
      simp only [deepCopyL, goodL, ih1.1, Bool.and_eq_true]
      exact ⟨ih1.2.2.2.2 hh.1, ih2.2.2.2.2 hh.2⟩
end

/-- C1 (amended): for a forest input whose payloads carry none of the
reserved `_key` / `_children` fields (a caller `_key` would override the
fresh uuid, and a caller `_children` would be spread into the copy as extra
un-keyed tree data), normalization yields one synthetic root (key-less,
named `"__invisible_root"`) plus exactly one copy per input node, the
copies' keys are the fresh uuids `n, n+1, ...` and are unique across the
tree, and stripping the copy-only data from the root's children recovers
exactly the input trees in reverse input order (so each copy preserves
payload and shape, and the raw input is reproduced, not consumed). -/
theorem normalization_forest_shape (l : List Data) (n : Nat) (h : noKeyFieldL l = true)
    (h2 : noHiddenFieldL l = true) :
    countNT (updatedInternalData (some (.forest l)) n).1 = countDataL l + 1
    ∧ keysNT (updatedInternalData (some (.forest l)) n).1
        = (List.range' n (countDataL l)).map KeyV.fresh
    ∧ (keysNT (updatedInternalData (some (.forest l)) n).1).Nodup
    ∧ (updatedInternalData (some (.forest l)) n).1.keyF = none
    ∧ (updatedInternalData (some (.forest l)) n).1.nameF = some "__invisible_root"
    ∧ ((updatedInternalData (some (.forest l)) n).1.childrenF).map forgetL = some l.reverse := by
  have hs := deepCopyL_spec l.reverse n
  have hkeys : keysNT (updatedInternalData (some (.forest l)) n).1
      = (List.range' n (countDataL l)).map KeyV.fresh := by
    simp only [updatedInternalData, keysNT, keysCh, Option.toList_none, List.nil_append,
      List.append_nil,
      hs.2.2.2.1 (noKeyFieldL_reverse l h) (noHiddenFieldL_reverse l h2), countDataL_reverse]
  refine ⟨?_, hkeys, ?_, rfl, rfl, ?_⟩
  · simp only [updatedInternalData, countNT, countNTCh,
      hs.2.1 (noHiddenFieldL_reverse l h2), countDataL_reverse]
    omega
  · rw [hkeys]
    exact (nodup_range_one (countDataL l) n).map (fun a b hab => by injection hab)
  · simp [updatedInternalData, NTree.childrenF, hs.2.2.1]

/-- Witness for C1: the amended statement holds at a concrete two-tree,
three-node forest with the uuid supply starting at 0. -/
theorem normalization_forest_shape_witness :
    noKeyFieldL exampleForest = true
    ∧ noHiddenFieldL exampleForest = true
    ∧ (countNT (updatedInternalData (some (.forest exampleForest)) 0).1
          = countDataL exampleForest + 1
       ∧ keysNT (updatedInternalData (some (.forest exampleForest)) 0).1
          = (List.range' 0 (countDataL exampleForest)).map KeyV.fresh
       ∧ (keysNT (updatedInternalData (some (.forest exampleForest)) 0).1).Nodup
       ∧ (updatedInternalData (some (.forest exampleForest)) 0).1.keyF = none
       ∧ (updatedInternalData (some (.forest exampleForest)) 0).1.nameF
          = some "__invisible_root"
       ∧ ((updatedInternalData (some (.forest exampleForest)) 0).1.childrenF).map forgetL
          = some exampleForest.reverse) :=
  ⟨by decide, by decide, normalization_forest_shape exampleForest 0 (by decide) (by decide)⟩

/-- Counterexample for C1 as frozen: with the raw payloads of `dupKeyForest`
both carrying `_key: "a"`, the object spread in `deepCopy` overrides the
fresh uuid with the caller value, so the two copies share the key `"a"` and
the keys of the normalized tree are not unique. -/
theorem normalization_dup_rawkey_cex :
    ¬ (keysNT (updatedInternalData (some (.forest dupKeyForest)) 0).1).Nodup := by
  decide

/-- C2 (confirmed): toggling a node whose `children` field holds a non-empty
list, twice in succession, restores exactly the original `children` list
(hence the same keys, order and payloads), and leaves the node's own key,
name and remaining payload untouched. -/
theorem toggle_toggle_roundtrip (t : NTree) (l : List NTree)
    (h : t.childrenF = some l) (_hne : l ≠ []) :
    (toggleNode (toggleNode t)).childrenF = some l
    ∧ (toggleNode (toggleNode t)).keyF = t.keyF
    ∧ (toggleNode (toggleNode t)).nameF = t.nameF
    ∧ (toggleNode (toggleNode t)).restF = t.restF
    ∧ (toggleNode (toggleNode t)).hiddenF = none := by
  cases t with
  | mk k nm r hid c ch =>
    simp only [NTree.childrenF] at h
    subst h
    simp [toggleNode, NTree.childrenF, NTree.keyF, NTree.nameF, NTree.restF, NTree.hiddenF]

/-- Witness for C2 at a concrete one-child node. -/
theorem toggle_toggle_roundtrip_witness :
    exampleParent.childrenF = some [exampleChild]
    ∧ [exampleChild] ≠ ([] : List NTree)
    ∧ ((toggleNode (toggleNode exampleParent)).childrenF = some [exampleChild]
       ∧ (toggleNode (toggleNode exampleParent)).keyF = exampleParent.keyF
       ∧ (toggleNode (toggleNode exampleParent)).nameF = exampleParent.nameF
       ∧ (toggleNode (toggleNode exampleParent)).restF = exampleParent.restF
       ∧ (toggleNode (toggleNode exampleParent)).hiddenF = none) :=
  ⟨rfl, by simp, toggle_toggle_roundtrip exampleParent [exampleChild] rfl (by simp)⟩

theorem toggleNode_good (t : NTree) (hg : goodNT t = true) : goodNT (toggleNode t) = true := by
  cases t with
  | mk k nm r hid c ch =>
    cases ch with
    | some cs =>
      simp only [goodNT, Bool.and_eq_true] at hg
      simp [toggleNode, goodNT, popB, goodCh, Bool.and_eq_true]
      exact hg.1.2
    | none =>
      simp only [goodNT, Bool.and_eq_true] at hg
      simp [toggleNode, goodNT, popB, goodCh, Bool.and_eq_true, Bool.and_false]
      exact hg.2

theorem toggleAtL_same_pop (i : Nat) (p : List Nat) (l : List NTree) :
    popB (some (toggleAtL i p l)) = popB (some l) := by
  cases l with
  | nil => cases i <;> simp [toggleAtL]
  | cons t ts => cases i <;> simp [toggleAtL, popB]

mutual
theorem toggleAt_good : ∀ (p : List Nat) (t : NTree),
    goodNT t = true → goodNT (toggleAt p t) = true
  | [], t, hg => by simpa [toggleAt] using toggleNode_good t hg
  | i :: p, .mk k nm r hid c ch, hg => by
    cases ch with
    | none => simpa [toggleAt] using hg
    | some l =>
      simp only [goodNT, Bool.and_eq_true] at hg
      simp only [toggleAt, goodNT, Bool.and_eq_true, toggleAtL_same_pop, goodCh]
      exact ⟨⟨hg.1.1, toggleAtL_good i p l hg.1.2⟩, hg.2⟩

theorem toggleAtL_good : ∀ (i : Nat) (p : List Nat) (l : List NTree),
    goodL l = true → goodL (toggleAtL i p l) = true
  | _, _, [], hg => by simpa [toggleAtL] using hg
  | 0, p, t :: ts, hg => by
    simp only [goodL, Bool.and_eq_true] at hg
    simp only [toggleAtL, goodL, Bool.and_eq_true]
    exact ⟨toggleAt_good p t hg.1, hg.2⟩
  | i + 1, p, t :: ts, hg => by
    simp only [goodL, Bool.and_eq_true] at hg
    simp only [toggleAtL, goodL, Bool.and_eq_true]
    exact ⟨hg.1, toggleAtL_good i p ts hg.2⟩
end

theorem good_norm (x : Option ExternalData) (n : Nat) (hx : noHiddenExternal x = true) :
    goodNT (updatedInternalData x n).1 = true := by
  cases x with
  | none => simp [updatedInternalData, goodNT, goodCh, goodL, popB]
  | some e =>
    cases e with
    | single d =>
      simp only [noHiddenExternal] at hx
      simp [updatedInternalData, goodNT, goodCh, goodL, popB, Bool.and_eq_true,
        (deepCopy_spec d n).2.2.2.2 hx]
    | forest l =>
      simp only [noHiddenExternal] at hx
      simp [updatedInternalData, goodNT, goodCh, goodL, popB, Bool.and_eq_true,
        (deepCopyL_spec l.reverse n).2.2.2.2 (noHiddenFieldL_reverse l hx)]

theorem good_toggles (ps : List (List Nat)) (t : NTree) (hg : goodNT t = true) :
    goodNT (ps.foldl (fun a p => toggleAt p a) t) = true := by
  induction ps generalizing t with
  | nil => exact hg
  | cons p ps ih => exact ih (toggleAt p t) (toggleAt_good p t hg)

mutual
theorem allNodes_good : ∀ (t : NTree), goodNT t = true →
    ∀ u ∈ allNodes t, goodNT u = true
  | .mk k nm r hid c ch, hg, u, hu => by
    rcases (by simpa [allNodes] using hu :
        u = NTree.mk k nm r hid c ch ∨ u ∈ allNodesCh ch ∨ u ∈ allNodesCh hid) with
      h1 | h1 | h1
    · exact h1 ▸ hg
    · simp only [goodNT, Bool.and_eq_true] at hg
      exact allNodesCh_good ch hg.1.2 u h1
    · simp only [goodNT, Bool.and_eq_true] at hg
      exact allNodesCh_good hid hg.2 u h1

theorem allNodesCh_good : ∀ (o : Option (List NTree)), goodCh o = true →
    ∀ u ∈ allNodesCh o, goodNT u = true
  | none, _, u, hu => by simp [allNodesCh] at hu
  | some l, hg, u, hu =>
    allNodesL_good l (by simpa [goodCh] using hg) u (by simpa [allNodesCh] using hu)

theorem allNodesL_good : ∀ (l : List NTree), goodL l = true →
    ∀ u ∈ allNodesL l, goodNT u = true
  | [], _, u, hu => by simp [allNodesL] at hu
  | t :: ts, hg, u, hu => by
    simp only [goodL, Bool.and_eq_true] at hg
    rcases List.mem_append.mp (by simpa [allNodesL] using hu) with h1 | h1
    · exact allNodes_good t hg.1 u h1
    · exact allNodesL_good ts hg.2 u h1
end

theorem allNodesCh_nil_iff (o : Option (List NTree)) :
    allNodesCh o = [] ↔ popB o = false := by
  cases o with
  | none => simp [allNodesCh, popB]
  | some l =>
    cases l with
    | nil => simp [allNodesCh, allNodesL, popB]
    | cons t ts =>
      simp only [allNodesCh, allNodesL, popB]
      constructor
      · intro h
        exfalso
        cases t with
        | mk k nm r hid c ch => simp [allNodes] at h
      · intro h
        exact absurd h (by simp)

theorem goodNT_not_both (u : NTree) (hg : goodNT u = true) :
    ¬(popB u.childrenF = true ∧ popB u.hiddenF = true) := by
  cases u with
  | mk k nm r hid c ch =>
    simp only [goodNT, Bool.and_eq_true] at hg
    simp only [NTree.childrenF, NTree.hiddenF]
    intro hcontra
    rw [hcontra.1, hcontra.2] at hg
    simp at hg

/-- C5 (amended): provided no raw payload carries the reserved `_children`
field (a caller `_children` is spread into the copy and can leave a node
with `children` and `value._children` both populated straight after
normalization), then after normalizing the input and applying any sequence
of collapse toggles (each addressed at a node of the tree), every node `u`
of the resulting tree satisfies the invariant: `children` and `_children`
are never simultaneously populated (present and non-empty); when the node
has strict descendants exactly one of the two is populated; and a node
without strict descendants has neither populated. -/
theorem children_hidden_invariant (x : Option ExternalData) (n : Nat)
    (ps : List (List Nat)) (u : NTree) (hres : noHiddenExternal x = true)
    (hu : u ∈ allNodes (ps.foldl (fun a p => toggleAt p a) (updatedInternalData x n).1)) :
    ¬(popB u.childrenF = true ∧ popB u.hiddenF = true)
    ∧ (allNodesCh u.childrenF ++ allNodesCh u.hiddenF ≠ [] →
        (popB u.childrenF = true ↔ popB u.hiddenF = false))
    ∧ (allNodesCh u.childrenF ++ allNodesCh u.hiddenF = [] →
        popB u.childrenF = false ∧ popB u.hiddenF = false) := by
  have hg : goodNT u = true :=
    allNodes_good _ (good_toggles ps _ (good_norm x n hres)) u hu
  have hnb := goodNT_not_both u hg
  refine ⟨hnb, ?_, ?_⟩
  · intro hne
    rcases hc : popB u.childrenF <;> rcases hh : popB u.hiddenF
    · exfalso
      exact hne (by simp [List.append_eq_nil, (allNodesCh_nil_iff _).mpr hc,
        (allNodesCh_nil_iff _).mpr hh])
    · simp
    · simp
    · exact absurd ⟨hc, hh⟩ hnb
  · intro heq
    have h2 := List.append_eq_nil.mp heq
    exact ⟨(allNodesCh_nil_iff _).mp h2.1, (allNodesCh_nil_iff _).mp h2.2⟩

/-- Witness for C5: the amended invariant instantiated at the synthetic root
of the normalization of an absent input (which trivially carries no reserved
payload field), with no toggles applied. -/
theorem children_hidden_invariant_witness :
    noHiddenExternal none = true
    ∧ (¬(popB rootOnly.childrenF = true ∧ popB rootOnly.hiddenF = true)
       ∧ (allNodesCh rootOnly.childrenF ++ allNodesCh rootOnly.hiddenF ≠ [] →
           (popB rootOnly.childrenF = true ↔ popB rootOnly.hiddenF = false))
       ∧ (allNodesCh rootOnly.childrenF ++ allNodesCh rootOnly.hiddenF = [] →
           popB rootOnly.childrenF = false ∧ popB rootOnly.hiddenF = false)) :=
  ⟨rfl, children_hidden_invariant none 0 [] rootOnly rfl
    (by simp [updatedInternalData, allNodes, allNodesCh, allNodesL, rootOnly])⟩

/-- Counterexample for C5 as frozen: normalizing `hiddenPayloadInput` (whose
top-level payload stores a tree under the reserved `_children` name while
the node also has a structural child) yields, with zero toggles applied, the
node `hiddenPayloadNode` of the normalized tree whose `children` and
`value._children` are both present and non-empty — the claimed invariant
fails immediately after normalization. -/
theorem children_hidden_invariant_cex :
    hiddenPayloadNode
        ∈ allNodes (updatedInternalData (some (.single hiddenPayloadInput)) 0).1
    ∧ popB hiddenPayloadNode.childrenF = true
    ∧ popB hiddenPayloadNode.hiddenF = true := by
  refine ⟨?_, rfl, rfl⟩
  simp [updatedInternalData, deepCopy, deepCopyL, rawNode, rawForestO, rawForestL,
    Datum._keyF, Datum.nameF, Datum.restF, Datum.hiddenF, Datum.collapsedF,
    allNodes, allNodesCh, allNodesL, hiddenPayloadInput, hiddenPayloadNode]

/-- C6 (amended): toggling a node that has neither `children` nor
`value._children` leaves its key, name, payload, `children` and `_children`
fields (and hence the shape of the tree and every layout coordinate)
unchanged, but writes `_collapsed := false`; it is a strict no-op exactly
when `_collapsed` was already `false`. -/
theorem toggle_leaf_effect (t : NTree) (h1 : t.childrenF = none) (h2 : t.hiddenF = none) :
    (toggleNode t).childrenF = none
    ∧ (toggleNode t).hiddenF = none
    ∧ (toggleNode t).keyF = t.keyF
    ∧ (toggleNode t).nameF = t.nameF
    ∧ (toggleNode t).restF = t.restF
    ∧ (toggleNode t).collapsedF = some false
    ∧ (t.collapsedF = some false → toggleNode t = t) := by
  cases t with
  | mk k nm r hid c ch =>
    simp only [NTree.childrenF] at h1
    simp only [NTree.hiddenF] at h2
    subst h1
    subst h2
    refine ⟨rfl, rfl, rfl, rfl, rfl, rfl, fun hc => ?_⟩
    simp only [NTree.collapsedF] at hc
    subst hc
    rfl

/-- Witness for C6 at a concrete leaf. -/
theorem toggle_leaf_effect_witness :
    freshLeaf.childrenF = none
    ∧ freshLeaf.hiddenF = none
    ∧ ((toggleNode freshLeaf).childrenF = none
       ∧ (toggleNode freshLeaf).hiddenF = none
       ∧ (toggleNode freshLeaf).keyF = freshLeaf.keyF
       ∧ (toggleNode freshLeaf).nameF = freshLeaf.nameF
       ∧ (toggleNode freshLeaf).restF = freshLeaf.restF
       ∧ (toggleNode freshLeaf).collapsedF = some false
       ∧ (freshLeaf.collapsedF = some false → toggleNode freshLeaf = freshLeaf)) :=
  ⟨rfl, rfl, toggle_leaf_effect freshLeaf rfl rfl⟩

/-- Counterexample for C6 as frozen: toggling the never-toggled leaf
`freshLeaf` is not a no-op — it changes the node (its `_collapsed` field goes
from absent to `false`). -/
theorem toggle_leaf_not_noop_cex : toggleNode freshLeaf ≠ freshLeaf := by
  intro h
  have := congrArg NTree.collapsedF h
  simp [toggleNode, freshLeaf, NTree.collapsedF] at this

/-- C7 (amended): calling `onClickNode` with an index that has no node in
the current `nodeDataList` (the situation of a stale identifier) is not a
no-op: with collapse enabled, `nodeDataList.value[index]` is `undefined` and
the following `curNode.data` access throws a TypeError, modelled as an
`Except.error`. -/
theorem onClickNode_missing_index_error (cfg : Config) (s : DrawState) (i : Nat)
    (hcfg : cfg.collapseEnabled = true) (hlen : s.nodeDataList.length ≤ i) :
    onClickNode cfg s i = Except.error "TypeError: cannot read data of undefined" := by
  simp [onClickNode, hcfg, List.getElem?_eq_none hlen]

/-- Witness for C7: the amended statement at the source configuration and a
state whose node list is empty. -/
theorem onClickNode_missing_index_error_witness :
    config.collapseEnabled = true
    ∧ emptyState.nodeDataList.length ≤ 0
    ∧ onClickNode config emptyState 0
        = Except.error "TypeError: cannot read data of undefined" :=
  ⟨rfl, by simp [emptyState], onClickNode_missing_index_error config emptyState 0 rfl
    (by simp [emptyState])⟩

/-- Counterexample for C7 as frozen: at index 0 of a state with an empty node
list, `onClickNode` does not return the state unchanged (it errors), so the
call is not the claimed raise-nothing no-op. -/
theorem onClickNode_missing_index_cex :
    onClickNode config emptyState 0
      = Except.error "TypeError: cannot read data of undefined"
    ∧ onClickNode config emptyState 0 ≠ Except.ok emptyState := by
  constructor
  · simp [onClickNode, config, emptyState, updatedInternalData]
  · simp [onClickNode, config, emptyState, updatedInternalData]

/-- C8 (amended): a drag gesture that presses at (cx, cy) and moves to
(cx + dx, cy + dy) changes the applied pan offsets, relative to the offsets
at mousedown, by exactly (dx, dy) when the scale is 1, and by the floored
quotients (⌊dx/2⌋, ⌊dy/2⌋) — not the exact halves — when the scale is 2. -/
theorem drag_pan_offset_change (s : PanState) (cx cy dx dy : Int) :
    ((onMouseMove 1 (onMouseDown s cx cy) (cx + dx) (cy + dy)).offsetX = s.offsetX + dx
     ∧ (onMouseMove 1 (onMouseDown s cx cy) (cx + dx) (cy + dy)).offsetY = s.offsetY + dy)
    ∧ ((onMouseMove 2 (onMouseDown s cx cy) (cx + dx) (cy + dy)).offsetX
          = s.offsetX + Int.fdiv dx 2
       ∧ (onMouseMove 2 (onMouseDown s cx cy) (cx + dx) (cy + dy)).offsetY
          = s.offsetY + Int.fdiv dy 2) := by
  have hx : cx + dx - cx = dx := by omega
  have hy : cy + dy - cy = dy := by omega
  refine ⟨⟨?_, ?_⟩, ?_, ?_⟩ <;>
    simp [onMouseMove, onMouseDown, hx, hy, Int.fdiv_one, Int.add_comm]

/-- Counterexample for C8 as frozen: dragging by dx = 3 at scale 2 changes
the x offset by 1 (the floor of 3/2), which is not exactly 3/2: twice the
change is 2, not 3. -/
theorem drag_scale2_not_exact_cex :
    2 * ((onMouseMove 2 (onMouseDown ⟨0, 0, false, 0, 0, 0, 0⟩ 0 0) 3 0).offsetX
          - (⟨0, 0, false, 0, 0, 0, 0⟩ : PanState).offsetX) ≠ 3 := by
  decide

/-- C10 (confirmed): a raw node whose `children` field is a present empty
array is copied with a present empty array (not an absent field), and
toggling the copy is not a no-op: the empty array is truthy, so the first
toggle moves it into `value._children`, clears `children` and sets
`_collapsed := true`. -/
theorem empty_children_copy_toggle (v : Datum) (n : Nat) :
    (deepCopy (.mk v (some [])) n).1.childrenF = some []
    ∧ (toggleNode (deepCopy (.mk v (some [])) n).1).childrenF = none
    ∧ (toggleNode (deepCopy (.mk v (some [])) n).1).hiddenF = some []
    ∧ (toggleNode (deepCopy (.mk v (some [])) n).1).collapsedF = some true
    ∧ toggleNode (deepCopy (.mk v (some [])) n).1 ≠ (deepCopy (.mk v (some [])) n).1 := by
  refine ⟨?_, ?_, ?_, ?_, ?_⟩
  · simp [deepCopy, deepCopyL, NTree.childrenF]
  · simp [deepCopy, deepCopyL, toggleNode, NTree.childrenF]
  · simp [deepCopy, deepCopyL, toggleNode, NTree.hiddenF]
  · simp [deepCopy, deepCopyL, toggleNode, NTree.collapsedF]
  · intro h
    have := congrArg NTree.childrenF h
    simp [deepCopy, deepCopyL, toggleNode, NTree.childrenF] at this

/-- C9 (confirmed): the node and link lists `draw` emits are a function of
the current normalized tree and the configuration alone — two states with
the same dataset but arbitrarily different previously rendered lists get
identical output (no dependence on previous layout state, and the model has
no source of randomness) — and `draw` is idempotent: running it again on its
own output state reproduces that state exactly, coordinates included. -/
theorem layout_deterministic_idempotent (cfg : Config) (s s1 s2 : DrawState)
    (h : s1.dataset = s2.dataset) :
    ((draw cfg s1).nodeDataList = (draw cfg s2).nodeDataList
     ∧ (draw cfg s1).linkDataList = (draw cfg s2).linkDataList)
    ∧ draw cfg (draw cfg s) = draw cfg s := by
  refine ⟨⟨?_, ?_⟩, ?_⟩
  · simp [draw, h]
  · simp [draw, h]
  · rfl

/-- Witness for C9 at the source configuration and a concrete state. -/
theorem layout_deterministic_idempotent_witness :
    emptyState.dataset = emptyState.dataset
    ∧ (((draw config emptyState).nodeDataList = (draw config emptyState).nodeDataList
        ∧ (draw config emptyState).linkDataList = (draw config emptyState).linkDataList)
       ∧ draw config (draw config emptyState) = draw config emptyState) :=
  ⟨rfl, layout_deterministic_idempotent config emptyState emptyState emptyState rfl⟩

theorem combine_dataF (node : NTree) (subs : List (PTree × List Rat × List Rat)) (w : Rat) :
    (combine node subs w).1.dataF = node := by
  cases subs with
  | nil => rfl
  | cons c rest => rfl

theorem layoutSub_dataF (w : Rat) (t : NTree) : (layoutSub w t).1.dataF = t := by
  cases t with
  | mk k nm r hid c ch =>
    cases ch with
    | none => rfl
    | some l => exact combine_dataF _ _ _

theorem buildTree_nodes_head (cfg : Config) (t : NTree) :
    (buildTree cfg t).nodes.head? = some ⟨[], t, 0, 0⟩ := by
  rw [buildTree, bfsTraverse]
  simp [layoutSub_dataF]

theorem updatedInternalData_name (x : Option ExternalData) (n : Nat) :
    (updatedInternalData x n).1.nameF = some "__invisible_root" := by
  cases x with
  | none => rfl
  | some e => cases e with
    | single d => rfl
    | forest l => rfl

/-- C4 (amended): for every normalized tree, `draw` removes exactly the
first element of the layout's node sequence, and that element is the
positioned node of the synthetic root (path `[]`, coordinates (0, 0), data
the root itself, whose payload name is the sentinel `"__invisible_root"`);
and it keeps exactly the links whose source payload `name` differs from the
sentinel string — in particular every link whose source is the synthetic
root is excluded, but a link whose source merely reuses the sentinel name in
its payload is excluded as well (so not all other links are kept). -/
theorem draw_excludes_root (cfg : Config) (x : Option ExternalData) (n : Nat)
    (s : DrawState) (h : s.dataset = (updatedInternalData x n).1) :
    ((buildTree cfg s.dataset).nodes.head? = some ⟨[], s.dataset, 0, 0⟩
     ∧ s.dataset.nameF = some "__invisible_root")
    ∧ (draw cfg s).nodeDataList = (buildTree cfg s.dataset).nodes.drop 1
    ∧ (draw cfg s).linkDataList
        = (buildTree cfg s.dataset).links.filter
            (fun l => l.source.data.nameF != some "__invisible_root")
    ∧ ∀ l ∈ (buildTree cfg s.dataset).links,
        l.source.data.nameF = some "__invisible_root" → l ∉ (draw cfg s).linkDataList := by
  refine ⟨⟨buildTree_nodes_head cfg s.dataset, h ▸ updatedInternalData_name x n⟩, rfl, rfl, ?_⟩
  intro l hl hname hmem
  have := List.of_mem_filter hmem
  rw [hname] at this
  simp at this

/-- Witness for C4: the amended statement at the source configuration, the
normalization of an absent input, and empty rendered lists. -/
theorem draw_excludes_root_witness :
    emptyState.dataset = (updatedInternalData none 0).1
    ∧ (((buildTree config emptyState.dataset).nodes.head?
          = some ⟨[], emptyState.dataset, 0, 0⟩
        ∧ emptyState.dataset.nameF = some "__invisible_root")
       ∧ (draw config emptyState).nodeDataList
          = (buildTree config emptyState.dataset).nodes.drop 1
       ∧ (draw config emptyState).linkDataList
          = (buildTree config emptyState.dataset).links.filter
              (fun l => l.source.data.nameF != some "__invisible_root")
       ∧ ∀ l ∈ (buildTree config emptyState.dataset).links,
          l.source.data.nameF = some "__invisible_root"
            → l ∉ (draw config emptyState).linkDataList) :=
  ⟨rfl, draw_excludes_root config none 0 emptyState rfl⟩

/-- Counterexample for C4 as frozen: normalizing `sentinelReuseInput` (whose
top-level payload reuses the name `"__invisible_root"`) yields a layout with
two links — the one from the synthetic root and the one from the impostor
node to its child, and only the former has the synthetic root (path `[]`) as
source — yet `draw` emits no link at all: a link whose source is not the
synthetic root was excluded, contradicting that all such links are kept. -/
theorem draw_sentinel_name_cex :
    (buildTree config sentinelReuseTree).links.length = 2
    ∧ ((buildTree config sentinelReuseTree).links.filter
        (fun l => l.source.path == ([] : List Nat))).length = 1
    ∧ (draw config ⟨sentinelReuseTree, [], []⟩).linkDataList = [] := by
  refine ⟨?_, ?_, ?_⟩ <;>
    simp [draw, buildTree, bfsTraverse, kidsEntries, layoutSub, layoutSubL, combine,
      placeStep, fitShift, sentinelReuseTree, sentinelReuseInput, updatedInternalData,
      deepCopy, deepCopyL, rawForestO, Datum._keyF, Datum.nameF, Datum.restF,
      Datum.hiddenF, Datum.collapsedF, PTree.dataF, PTree.subF, PTree.relXF,
      PTree.withRelX, NTree.nameF]

theorem eraseKey_sublist (k : String) (m : List (String × DLink)) :
    List.Sublist (eraseKey k m) m := by
  induction m with
  | nil => simp [eraseKey]
  | cons e es ih =>
    rw [eraseKey]
    by_cases he : e.1 = k
    · rw [if_pos he]
      exact List.sublist_cons_self e es
    · rw [if_neg he]
      exact List.Sublist.cons₂ e ih

theorem eraseKey_keys_nodup (k : String) (m : List (String × DLink))
    (h : (m.map Prod.fst).Nodup) : ((eraseKey k m).map Prod.fst).Nodup :=
  h.sublist (List.Sublist.map Prod.fst (eraseKey_sublist k m))

theorem lookup_eraseKey_of_ne (m : List (String × DLink)) (k kp : String) (hne : kp ≠ k) :
    (eraseKey k m).lookup kp = m.lookup kp := by
  induction m with
  | nil => simp [eraseKey]
  | cons e es ih =>
    obtain ⟨a, b⟩ := e
    rw [eraseKey]
    by_cases he : a = k
    · rw [if_pos he]
      rw [List.lookup_cons]
      have : (kp == a) = false := by
        subst he
        simp [hne]
      simp [this]
    · rw [if_neg he]
      rw [List.lookup_cons, List.lookup_cons, ih]

theorem eraseKey_eq_filter (k : String) (m : List (String × DLink))
    (h : (m.map Prod.fst).Nodup) :
    eraseKey k m = m.filter (fun e => !(e.1 == k)) := by
  induction m with
  | nil => rfl
  | cons e es ih =>
    obtain ⟨a, b⟩ := e
    simp only [List.map_cons, List.nodup_cons] at h
    rw [eraseKey]
    by_cases he : a = k
    · subst he
      rw [if_pos rfl, List.filter_cons_of_neg (by simp)]
      symm
      apply List.filter_eq_self.mpr
      intro x hx
      simp only [Bool.not_eq_eq_eq_not, Bool.not_true, beq_eq_false_iff_ne, ne_eq]
      intro hxa
      exact h.1 (List.mem_map.mpr ⟨x, hx, hxa⟩)
    · rw [if_neg he, List.filter_cons_of_pos (by simp [he]), ih h.2]

theorem bindOld_of_fresh : ∀ (old : List DLink) (m : List (String × DLink)),
    (∀ a ∈ old, m.lookup (linkKeyStr a) = none) →
    (old.map linkKeyStr).Nodup →
    bindOld old m = (m ++ old.map (fun a => (linkKeyStr a, a)), [])
  | [], m, _, _ => by simp [bindOld]
  | a :: as, m, hdisj, hnodup => by
    have h0 : m.lookup (linkKeyStr a) = none := hdisj a (by simp)
    simp only [List.map_cons, List.nodup_cons] at hnodup
    rw [bindOld, if_neg (by simp [h0])]
    rw [bindOld_of_fresh as (m ++ [(linkKeyStr a, a)]) ?_ hnodup.2]
    · simp
    · intro b hb
      rw [List.lookup_append, hdisj b (by simp [hb]), Option.none_or]
      have : (linkKeyStr b == linkKeyStr a) = false := by
        simp only [beq_eq_false_iff_ne, ne_eq]
        intro hk
        exact hnodup.1 (List.mem_map.mpr ⟨b, hb, hk⟩)
      simp [List.lookup_cons, this]

theorem filter_cons_pos (p : DLink → Bool) (d : DLink) (ds : List DLink) (h : p d = true) :
    List.filter p (d :: ds) = d :: List.filter p ds :=
  List.filter_cons_of_pos h

theorem filter_cons_neg (p : DLink → Bool) (d : DLink) (ds : List DLink) (h : p d = false) :
    List.filter p (d :: ds) = List.filter p ds :=
  List.filter_cons_of_neg (by simp [h])

theorem bindNew_spec : ∀ (new : List DLink) (m : List (String × DLink)),
    (m.map Prod.fst).Nodup → (new.map linkKeyStr).Nodup →
    bindNew new m
      = (new.filter (fun d => (m.lookup (linkKeyStr d)).isSome),
         new.filter (fun d => !(m.lookup (linkKeyStr d)).isSome),
         m.filter (fun e => !((new.map linkKeyStr).contains e.1)))
  | [], m, _, _ => by
    simp [bindNew, List.filter_eq_self]
  | d :: ds, m, hm, hnew => by
    simp only [List.map_cons, List.nodup_cons] at hnew
    have hfresh : ∀ x ∈ ds, linkKeyStr x ≠ linkKeyStr d := fun x hx hk =>
      hnew.1 (List.mem_map.mpr ⟨x, hx, hk⟩)
    by_cases hsome : (m.lookup (linkKeyStr d)).isSome = true
    · rw [bindNew, if_pos hsome,
        bindNew_spec ds (eraseKey (linkKeyStr d) m) (eraseKey_keys_nodup _ _ hm) hnew.2]
      simp only [Prod.mk.injEq]
      refine ⟨?_, ?_, ?_⟩
      · rw [filter_cons_pos (fun x => (List.lookup (linkKeyStr x) m).isSome) d ds hsome]
        exact congrArg _ (List.filter_congr fun x hx =>
          congrArg Option.isSome (lookup_eraseKey_of_ne m _ _ (hfresh x hx)))
      · rw [filter_cons_neg (fun x => !(List.lookup (linkKeyStr x) m).isSome) d ds
          (by simp [hsome])]
        exact List.filter_congr fun x hx => by
          rw [lookup_eraseKey_of_ne m _ _ (hfresh x hx)]
      · rw [eraseKey_eq_filter _ _ hm, List.filter_filter]
        refine List.filter_congr fun e he => ?_
        rw [List.map_cons, List.contains_cons, Bool.not_or, Bool.and_comm]
    · rw [bindNew, if_neg hsome, bindNew_spec ds m hm hnew.2]
      have hnone : m.lookup (linkKeyStr d) = none := by
        cases hlk : m.lookup (linkKeyStr d) with
        | none => rfl
        | some v => rw [hlk] at hsome; simp at hsome
      simp only [Prod.mk.injEq]
      refine ⟨?_, ?_, ?_⟩
      · rw [filter_cons_neg (fun x => (List.lookup (linkKeyStr x) m).isSome) d ds
          (by simp [hnone])]
      · rw [filter_cons_pos (fun x => !(List.lookup (linkKeyStr x) m).isSome) d ds
          (by simp [hnone])]
      · refine List.filter_congr fun e he => ?_
        have h1 : (e.1 == linkKeyStr d) = false := by
          simp only [beq_eq_false_iff_ne, ne_eq]
          intro hk
          rw [List.lookup_eq_none_iff] at hnone
          have h2 := hnone e he
          rw [hk] at h2
          simp at h2
        rw [List.map_cons, List.contains_cons, h1, Bool.false_or]

example : True := trivial

/-- C3 (amended): provided the composite string keys are collision-free on
the links involved (no two distinct (sourceKey, targetKey) pairs of A or B
concatenate to the same `source-"-"-target` string — true in particular for
uuid keys) and each collection holds distinct pairs, the keyed data join
classifies exactly the pairs in both A and B as update, exactly those in A
but not B as exit, exactly those in B but not A as enter, and no pair falls
in two categories.  -/
theorem diff_enter_update_exit (A B : List DLink) (hA : A.Nodup) (hB : B.Nodup)
    (hinj : ∀ x ∈ A ++ B, ∀ y ∈ A ++ B, linkKeyStr x = linkKeyStr y → x = y) :
    (∀ p : DLink, p ∈ (dataJoinByKey A B).update ↔ p ∈ A ∧ p ∈ B)
    ∧ (∀ p : DLink, p ∈ (dataJoinByKey A B).exit ↔ p ∈ A ∧ p ∉ B)
    ∧ (∀ p : DLink, p ∈ (dataJoinByKey A B).enter ↔ p ∈ B ∧ p ∉ A)
    ∧ (∀ p : DLink,
        ¬(p ∈ (dataJoinByKey A B).update ∧ p ∈ (dataJoinByKey A B).exit)
        ∧ ¬(p ∈ (dataJoinByKey A B).update ∧ p ∈ (dataJoinByKey A B).enter)
        ∧ ¬(p ∈ (dataJoinByKey A B).exit ∧ p ∈ (dataJoinByKey A B).enter)) := by
  have hAkeys : (A.map linkKeyStr).Nodup :=
    hA.map_on fun x hx y hy hxy =>
      hinj x (List.mem_append_left B hx) y (List.mem_append_left B hy) hxy
  have hBkeys : (B.map linkKeyStr).Nodup :=
    hB.map_on fun x hx y hy hxy =>
      hinj x (List.mem_append_right A hx) y (List.mem_append_right A hy) hxy
  have hb : bindOld A [] = ([] ++ A.map (fun a => (linkKeyStr a, a)), []) :=
    bindOld_of_fresh A [] (fun a _ => rfl) hAkeys
  have hmA : ((A.map (fun a => (linkKeyStr a, a))).map Prod.fst).Nodup := by
    rw [List.map_map]
    exact hAkeys
  have hr := bindNew_spec B (A.map (fun a => (linkKeyStr a, a))) hmA hBkeys
  have hJ : dataJoinByKey A B
      = ⟨B.filter (fun d =>
            ((A.map (fun a => (linkKeyStr a, a))).lookup (linkKeyStr d)).isSome),
         B.filter (fun d =>
            !((A.map (fun a => (linkKeyStr a, a))).lookup (linkKeyStr d)).isSome),
         ((A.map (fun a => (linkKeyStr a, a))).filter
            (fun e => !((B.map linkKeyStr).contains e.1))).map Prod.snd⟩ := by
    simp only [dataJoinByKey, hb, List.nil_append, hr]
  have hlook : ∀ p : DLink,
      (((A.map (fun a => (linkKeyStr a, a))).lookup (linkKeyStr p)).isSome = true
        ↔ ∃ a ∈ A, linkKeyStr a = linkKeyStr p) := by
    intro p
    rw [List.lookup_isSome_iff]
    constructor
    · rintro ⟨q, hq, hbeq⟩
      obtain ⟨a, ha, rfl⟩ := List.mem_map.mp hq
      refine ⟨a, ha, ?_⟩
      have := beq_iff_eq.mp hbeq
      exact this.symm
    · rintro ⟨a, ha, hk⟩
      exact ⟨(linkKeyStr a, a), List.mem_map.mpr ⟨a, ha, rfl⟩, by simp [hk]⟩
  have hApair : ∀ p, p ∈ B → ((∃ a ∈ A, linkKeyStr a = linkKeyStr p) ↔ p ∈ A) := by
    intro p hp
    constructor
    · rintro ⟨a, ha, hk⟩
      have heq := hinj a (List.mem_append_left B ha) p (List.mem_append_right A hp) hk
      exact heq ▸ ha
    · intro hpA
      exact ⟨p, hpA, rfl⟩
  have hBpair : ∀ p, p ∈ A → (((B.map linkKeyStr).contains (linkKeyStr p)) = true ↔ p ∈ B) := by
    intro p hp
    constructor
    · intro hc
      obtain ⟨b, hbB, hk⟩ := List.mem_map.mp (List.elem_iff.mp hc)
      have heq := hinj b (List.mem_append_right A hbB) p (List.mem_append_left B hp) hk
      exact heq ▸ hbB
    · intro hpB
      exact List.elem_iff.mpr (List.mem_map.mpr ⟨p, hpB, rfl⟩)
  have hexit : (dataJoinByKey A B).exit
      = A.filter (fun a => !((B.map linkKeyStr).contains (linkKeyStr a))) := by
    rw [hJ]
    show ((A.map (fun a => (linkKeyStr a, a))).filter
        (fun e => !((B.map linkKeyStr).contains e.1))).map Prod.snd = _
    rw [List.filter_map]
    rw [List.map_map]
    have h1 : ((fun e : String × DLink => !((B.map linkKeyStr).contains e.1))
        ∘ (fun a : DLink => (linkKeyStr a, a)))
        = fun a => !((B.map linkKeyStr).contains (linkKeyStr a)) := rfl
    have h2 : (Prod.snd ∘ (fun a : DLink => (linkKeyStr a, a))) = id := rfl
    rw [h1, h2, List.map_id]
  have hupd : ∀ p : DLink, p ∈ (dataJoinByKey A B).update ↔ p ∈ A ∧ p ∈ B := by
    intro p
    rw [hJ]
    show p ∈ B.filter _ ↔ _
    rw [List.mem_filter]
    constructor
    · rintro ⟨hpB, hcond⟩
      exact ⟨(hApair p hpB).mp ((hlook p).mp hcond), hpB⟩
    · rintro ⟨hpA, hpB⟩
      exact ⟨hpB, (hlook p).mpr ((hApair p hpB).mpr hpA)⟩
  have hext : ∀ p : DLink, p ∈ (dataJoinByKey A B).exit ↔ p ∈ A ∧ p ∉ B := by
    intro p
    rw [hexit, List.mem_filter]
    constructor
    · rintro ⟨hpA, hcond⟩
      refine ⟨hpA, fun hpB => ?_⟩
      have := (hBpair p hpA).mpr hpB
      rw [this] at hcond
      simp at hcond
    · rintro ⟨hpA, hpB⟩
      refine ⟨hpA, ?_⟩
      have : ((B.map linkKeyStr).contains (linkKeyStr p)) = false := by
        cases hc : ((B.map linkKeyStr).contains (linkKeyStr p)) with
        | false => rfl
        | true => exact absurd ((hBpair p hpA).mp hc) hpB
      rw [this]
      rfl
  have hent : ∀ p : DLink, p ∈ (dataJoinByKey A B).enter ↔ p ∈ B ∧ p ∉ A := by
    intro p
    rw [hJ]
    show p ∈ B.filter _ ↔ _
    rw [List.mem_filter]
    constructor
    · rintro ⟨hpB, hcond⟩
      refine ⟨hpB, fun hpA => ?_⟩
      have := (hlook p).mpr ((hApair p hpB).mpr hpA)
      rw [this] at hcond
      simp at hcond
    · rintro ⟨hpB, hpA⟩
      refine ⟨hpB, ?_⟩
      have : (((A.map (fun a => (linkKeyStr a, a))).lookup (linkKeyStr p)).isSome) = false := by
        cases hc : (((A.map (fun a => (linkKeyStr a, a))).lookup (linkKeyStr p)).isSome) with
        | false => rfl
        | true => exact absurd ((hApair p hpB).mp ((hlook p).mp hc)) hpA
      rw [this]
      rfl
  refine ⟨hupd, hext, hent, ?_⟩
  intro p
  refine ⟨?_, ?_, ?_⟩
  · rintro ⟨h1, h2⟩
    exact ((hext p).mp h2).2 ((hupd p).mp h1).2
  · rintro ⟨h1, h2⟩
    exact ((hent p).mp h2).2 ((hupd p).mp h1).1
  · rintro ⟨h1, h2⟩
    exact ((hent p).mp h2).2 ((hext p).mp h1).1

/-- Counterexample for C3 as frozen: the old collection holds only the pair
("a", "b-c") and the new collection only the pair ("a-b", "c").  As ordered
pairs these are different, so the claim requires update to be empty, the old
pair to exit and the new pair to enter; but both pairs produce the composite
key string "a-b-c", so the join classifies the new pair as an update of the
old element (and nothing enters or exits). -/
theorem diff_key_collision_cex :
    (⟨"a-b", "c"⟩ : DLink) ∈ (dataJoinByKey collisionOld collisionNew).update
    ∧ (⟨"a-b", "c"⟩ : DLink) ∉ collisionOld
    ∧ (dataJoinByKey collisionOld collisionNew).enter = []
    ∧ (dataJoinByKey collisionOld collisionNew).exit = [] := by
  decide

/-- Witness for C3: the amended statement applied to two concrete
collision-free collections, instantiated at the shared pair ("a", "c"). -/
theorem diff_enter_update_exit_witness :
    prevLinks.Nodup ∧ nextLinks.Nodup
    ∧ ((⟨"a", "c"⟩ : DLink) ∈ (dataJoinByKey prevLinks nextLinks).update
        ↔ (⟨"a", "c"⟩ : DLink) ∈ prevLinks ∧ (⟨"a", "c"⟩ : DLink) ∈ nextLinks) :=
  ⟨by decide, by decide,
    (diff_enter_update_exit prevLinks nextLinks (by decide) (by decide) (by decide)).1
      ⟨"a", "c"⟩⟩

end OrgChart
